import Mathlib

/-!
Verification of the face-dataset-generator pipeline (`src/main.rs`).

Shallow embedding conventions:
* Rust `u32` values are modelled as `ℕ`, `i32` as `ℤ`, `usize` as `ℕ`.
  Where the source performs a `u32` multiplication whose wrap-around is
  observable (the area products in `filter_valid_faces`), the model takes
  the product `% 2^32`, matching release-build wrapping semantics.
  In the cropper the `u32`/`i32` casts are modelled as identities: for the
  in-range detector outputs the claims speak about, the casts are identities.
* Rust `f64` arithmetic is modelled by exact arithmetic over `ℚ`; the
  literals `0.02`, `0.4`, `0.5`, `2.0` denote the corresponding rationals.
  `f64` division by zero produces a non-finite value that fails both strict
  comparisons in the source; the `ℚ` convention `q / 0 = 0` likewise fails
  them, so acceptance verdicts agree.
* Fallible Rust code (`Result`) is modelled with `Except Unit`.
-/

/-- A detector candidate region: `rustface::FaceInfo`'s bounding box
(`x y : i32`, `width height : u32`) together with its confidence score. -/
structure Region where
  x : ℤ
  y : ℤ
  w : ℕ
  h : ℕ
  score : ℚ
deriving DecidableEq, Repr

/-- `2^32`, the wrap-around modulus of Rust `u32` arithmetic. -/
def U32 : ℕ := 4294967296

/-- The acceptance predicate of `filter_valid_faces` (main.rs:213-231):
area ratio strictly between 0.02 and 0.4, confidence strictly above 2.0,
aspect ratio strictly between 0.5 and 2.0, and both sides at least 40.
The two area products are `u32` multiplications in the source, hence the
`% U32`. -/
def acceptFace (face : Region) (imgWidth imgHeight : ℕ) : Bool :=
  let imgArea : ℚ := ((imgWidth * imgHeight) % U32 : ℕ)
  let faceArea : ℚ := ((face.w * face.h) % U32 : ℕ)
  let faceRatio : ℚ := faceArea / imgArea
  let sizeOk := decide ((0.02 : ℚ) < faceRatio) && decide (faceRatio < (0.4 : ℚ))
  let confidenceOk := decide ((2.0 : ℚ) < face.score)
  let aspectRatio : ℚ := (face.w : ℚ) / (face.h : ℚ)
  let ratioOk := decide ((0.5 : ℚ) < aspectRatio) && decide (aspectRatio < (2.0 : ℚ))
  let minSizeOk := decide (40 ≤ face.w) && decide (40 ≤ face.h)
  sizeOk && confidenceOk && ratioOk && minSizeOk

/-- `filter_valid_faces` (main.rs:207-234): keep exactly the candidates
satisfying the acceptance predicate, in input order. -/
def filter_valid_faces (faces : List Region) (imgWidth imgHeight : ℕ) : List Region :=
  faces.filter (fun face => acceptFace face imgWidth imgHeight)

/-- Modelled from the spec (§4.1) and the claim's own wording: the
mathematical acceptance predicate with exact (non-wrapping) area products.
Used to compare the source's `u32` arithmetic against the mathematical
area-ratio definition. -/
def acceptFaceExact (face : Region) (imgWidth imgHeight : ℕ) : Bool :=
  let imgArea : ℚ := ((imgWidth * imgHeight : ℕ) : ℚ)
  let faceArea : ℚ := ((face.w * face.h : ℕ) : ℚ)
  let faceRatio : ℚ := faceArea / imgArea
  let sizeOk := decide ((0.02 : ℚ) < faceRatio) && decide (faceRatio < (0.4 : ℚ))
  let confidenceOk := decide ((2.0 : ℚ) < face.score)
  let aspectRatio : ℚ := (face.w : ℚ) / (face.h : ℚ)
  let ratioOk := decide ((0.5 : ℚ) < aspectRatio) && decide (aspectRatio < (2.0 : ℚ))
  let minSizeOk := decide (40 ≤ face.w) && decide (40 ≤ face.h)
  sizeOk && confidenceOk && ratioOk && minSizeOk

/-- The crop rectangle computed by `process_image` (main.rs:173-177), as
`(x, y, width, height)`:
`padding = (w + h) / 8`; `x = max (bbox.x - padding) 0`;
`width = min (w + 2*padding) (imgWidth - x)`; same for `y`/`height`. -/
def cropRect (face : Region) (imgWidth imgHeight : ℕ) : ℤ × ℤ × ℤ × ℤ :=
  let padding : ℤ := ((face.w + face.h) / 8 : ℕ)
  let x : ℤ := max (face.x - padding) 0
  let y : ℤ := max (face.y - padding) 0
  let width : ℤ := min ((face.w : ℤ) + 2 * padding) ((imgWidth : ℤ) - x)
  let height : ℤ := min ((face.h : ℤ) + 2 * padding) ((imgHeight : ℤ) - y)
  (x, y, width, height)

/-- Modelled from the spec (§4.2) as restated by the claim: the intersection
of the symmetrically expanded box `[x-p, x+w+p] × [y-p, y+h+p]` with the
image rectangle `[0,W] × [0,H]`, returned as `(x, y, width, height)` with
empty intersections given width/height `0`. -/
def specIntersectCrop (face : Region) (imgWidth imgHeight : ℕ) : ℤ × ℤ × ℤ × ℤ :=
  let padding : ℤ := ((face.w + face.h) / 8 : ℕ)
  let left : ℤ := max (face.x - padding) 0
  let top : ℤ := max (face.y - padding) 0
  let right : ℤ := min (face.x + face.w + padding) (imgWidth : ℤ)
  let bottom : ℤ := min (face.y + face.h + padding) (imgHeight : ℤ)
  (left, top, max (right - left) 0, max (bottom - top) 0)

example : acceptFace ⟨0, 0, 50, 50, 3⟩ 200 200 = true := by norm_num [acceptFace, U32]
example : acceptFace ⟨0, 0, 50, 50, 2⟩ 200 200 = false := by norm_num [acceptFace, U32]
example : acceptFace ⟨0, 0, 50, 0, 3⟩ 200 200 = false := by norm_num [acceptFace, U32]
example : cropRect ⟨0, 0, 50, 50, 3⟩ 200 200 = (0, 0, 74, 74) := by decide
example : specIntersectCrop ⟨0, 0, 50, 50, 3⟩ 200 200 = (0, 0, 62, 62) := by decide
example : acceptFace ⟨0, 0, 50000, 50000, 3⟩ 100000 100000 = false := by
  norm_num [acceptFace, U32]
example : acceptFaceExact ⟨0, 0, 50000, 50000, 3⟩ 100000 100000 = true := by
  norm_num [acceptFaceExact]

/-- One decimal digit as the character Rust's integer formatting prints. -/
def digitChar : ℕ → Char
  | 0 => '0'
  | 1 => '1'
  | 2 => '2'
  | 3 => '3'
  | 4 => '4'
  | 5 => '5'
  | 6 => '6'
  | 7 => '7'
  | 8 => '8'
  | _ => '9'

/-- Little-endian decimal digits of `n`, with explicit fuel so the
recursion is structural; `natDigits n n` gives all digits of `n`. -/
def natDigits (fuel n : ℕ) : List ℕ :=
  match fuel with
  | 0 => []
  | fuel + 1 => if n = 0 then [] else n % 10 :: natDigits fuel (n / 10)

/-- Big-endian decimal digit string of `n`, as Rust's `{}` prints it
(`0` prints as `"0"`). -/
def natChars (n : ℕ) : List Char :=
  if n = 0 then ['0'] else ((natDigits n n).map digitChar).reverse

/-- Rust's `{:04}` formatting: left-pad with zeros to width 4 (wider
numbers are printed in full). -/
def pad4 (n : ℕ) : List Char :=
  List.replicate (4 - (natChars n).length) '0' ++ natChars n

/-- Rust's `{}` formatting of a signed integer. -/
def intChars (z : ℤ) : List Char :=
  if z < 0 then '-' :: natChars z.natAbs else natChars z.natAbs

/-- The integer printed by `{:.0}` for `score * 100.0` (main.rs:182-186),
modelled as rounding the exact rational; no claim depends on the
tie-breaking rule of binary float formatting. -/
def score100 (q : ℚ) : ℤ := round (q * 100)

/-- The saved-file name built at main.rs:182-186:
`{stem}_{counter_before+1:04}_{score*100:.0}.jpg` as a character list. -/
def mkName (stem : List Char) (count : ℕ) (sc : ℤ) : List Char :=
  stem ++ '_' :: (pad4 count ++ '_' :: (intChars sc ++ ['.', 'j', 'p', 'g']))

/-- Read a big-endian decimal digit string back as a number. -/
def decodeChars (l : List Char) : ℕ :=
  Nat.ofDigits 10 ((l.map (fun c => c.toNat - 48)).reverse)

/-- Extract the zero-padded counter component from a saved filename:
strip the 4-character `.jpg` suffix, skip the score component (the
characters after the last underscore), and read the digits between the
last two underscores. -/
def countOf (name : List Char) : ℕ :=
  let r := name.reverse.drop 4
  let r2 := (r.dropWhile (fun c => c != '_')).tail
  decodeChars (r2.takeWhile (fun c => c != '_')).reverse

example : mkName ['a', '_', 'x'] 21 250
    = ['a', '_', 'x', '_', '0', '0', '2', '1', '_', '2', '5', '0', '.', 'j', 'p', 'g'] := by
  decide
example : countOf (mkName ['a', '_', 'x'] 21 250) = 21 := by decide

/-- One input file as the driver sees it: the filename stem and the
combined decode+detect outcome — either a decode error, or the image
dimensions together with the detected candidate regions, each paired
with the outcome its save would have (`true` = the filesystem write
succeeds).  The save flag models the external filesystem collaborator;
`filter_valid_faces` ignores it. -/
structure ImageFile where
  stem : List Char
  decode : Except Unit (ℕ × ℕ × List (Region × Bool))

/-- The per-region extraction loop of `process_image` (main.rs:164-195):
for each valid face, in order, re-check the counter against the target
(break once reached), build the filename from the counter value before
the increment, attempt the save (a failed save aborts the whole file
with an error, as the source's `?` operator does), and increment the
counter after a successful save.  Returns the function's
`Result<usize>` of faces extracted here, the final counter, and the
`(stem, counter+1, score*100)` records of the files actually written. -/
def extractLoop (stem : List Char) (faces : List (Region × Bool)) (counter target : ℕ) :
    (Except Unit ℕ) × ℕ × List (List Char × ℕ × ℤ) :=
  match faces with
  | [] => (Except.ok 0, counter, [])
  | (face, saveOk) :: rest =>
    if target ≤ counter then (Except.ok 0, counter, [])
    else if saveOk then
      let r := extractLoop stem rest (counter + 1) target
      (r.1.map (fun e => e + 1), r.2.1, (stem, counter + 1, score100 face.score) :: r.2.2)
    else (Except.error (), counter, [])

/-- `process_image` (main.rs:127-198): early-return if the target is
already reached; decode (an error is returned to the caller); detect;
filter; run the extraction loop. -/
def processImage (f : ImageFile) (counter target : ℕ) :
    (Except Unit ℕ) × ℕ × List (List Char × ℕ × ℤ) :=
  if target ≤ counter then (Except.ok 0, counter, [])
  else
    match f.decode with
    | Except.error _ => (Except.error (), counter, [])
    | Except.ok (imgW, imgH, faces) =>
      if faces.isEmpty then (Except.ok 0, counter, [])
      else
        let valid := faces.filter (fun p => acceptFace p.1 imgW imgH)
        if valid.isEmpty then (Except.ok 0, counter, [])
        else extractLoop f.stem valid counter target

/-- The file loop of `main` (main.rs:93-114): stop when the counter has
reached the target, otherwise process the next file; an `Ok` outcome
increments `processed`, an `Err` outcome increments `errors` and the
loop continues.  Returns the final counter, `processed`, `errors`, and
the save records of the whole run. -/
def runMain (files : List ImageFile) (counter target processed errors : ℕ) :
    ℕ × ℕ × ℕ × List (List Char × ℕ × ℤ) :=
  match files with
  | [] => (counter, processed, errors, [])
  | f :: fs =>
    if target ≤ counter then (counter, processed, errors, [])
    else
      let pr := processImage f counter target
      match pr.1 with
      | Except.ok _ =>
        let r := runMain fs pr.2.1 target (processed + 1) errors
        (r.1, r.2.1, r.2.2.1, pr.2.2 ++ r.2.2.2)
      | Except.error _ =>
        let r := runMain fs pr.2.1 target processed (errors + 1)
        (r.1, r.2.1, r.2.2.1, pr.2.2 ++ r.2.2.2)

/-- `main` after successful setup (main.rs:39-125): run the file loop
from counter 0 and return `Ok` regardless of per-file errors.  Only the
setup steps before the loop (output-directory creation, model load) can
produce an error exit, and they are outside this model. -/
def mainResult (files : List ImageFile) (target : ℕ) :
    Except Unit (ℕ × ℕ × ℕ × List (List Char × ℕ × ℤ)) :=
  Except.ok (runMain files 0 target 0 0)

/-- Number of filter-accepted regions a file contributes. -/
def validCount (f : ImageFile) : ℕ :=
  match f.decode with
  | Except.error _ => 0
  | Except.ok (imgW, imgH, faces) =>
    (faces.filter (fun p => acceptFace p.1 imgW imgH)).length

/-- The file decodes successfully. -/
def fileDecodeOk (f : ImageFile) : Bool :=
  match f.decode with
  | Except.error _ => false
  | Except.ok _ => true

/-- Every save attempted in this file would succeed. -/
def fileSavesOk (f : ImageFile) : Bool :=
  match f.decode with
  | Except.error _ => true
  | Except.ok (_, _, faces) => faces.all (fun p => p.2)

/-- The filenames written during a run, per the naming rule. -/
def savedNames (saves : List (List Char × ℕ × ℤ)) : List (List Char) :=
  saves.map (fun s => mkName s.1 s.2.1 s.2.2)

/-- The overflow example: a 50000×50000 candidate in a 100000×100000
image.  Mathematically its area ratio is 0.25, but both `u32` area
products wrap (`100000*100000 = 10^10 ≥ 2^32`). -/
def bigFace : Region := ⟨0, 0, 50000, 50000, 3⟩

theorem mem_filter_valid_iff (faces : List Region) (face : Region) (imgW imgH : ℕ) :
    face ∈ filter_valid_faces faces imgW imgH ↔
      face ∈ faces ∧ acceptFace face imgW imgH = true := by
  simp [filter_valid_faces, List.mem_filter]

/-- C1 (amended): provided neither pixel-count product reaches `2^32`
(so the source's `u32` multiplications do not wrap), the filter accepts
a region iff all of the following hold strictly:
`0.02 < (w*h)/(imgW*imgH) < 0.4`, `confidence > 2.0`, `0.5 < w/h < 2.0`,
and `w ≥ 40` and `h ≥ 40`; in particular no returned region has width or
height below 40, boundary values are excluded, and any region with
confidence ≤ 2.0 is excluded regardless of geometry. -/
theorem filter_accept_iff (faces : List Region) (face : Region) (imgW imgH : ℕ)
    (hface : face.w * face.h < U32) (himg : imgW * imgH < U32) :
    face ∈ filter_valid_faces faces imgW imgH ↔
      face ∈ faces ∧
        ((0.02 : ℚ) < ((face.w * face.h : ℕ) : ℚ) / ((imgW * imgH : ℕ) : ℚ) ∧
          ((face.w * face.h : ℕ) : ℚ) / ((imgW * imgH : ℕ) : ℚ) < (0.4 : ℚ)) ∧
        (2.0 : ℚ) < face.score ∧
        ((0.5 : ℚ) < (face.w : ℚ) / (face.h : ℚ) ∧
          (face.w : ℚ) / (face.h : ℚ) < (2.0 : ℚ)) ∧
        40 ≤ face.w ∧ 40 ≤ face.h := by
  rw [mem_filter_valid_iff]
  simp only [acceptFace, Nat.mod_eq_of_lt hface, Nat.mod_eq_of_lt himg,
    Bool.and_eq_true, decide_eq_true_eq]
  tauto

/-- C1 witness: the amended biconditional evaluated at a 50×50 region in
a 200×200 image (area ratio 1/16, aspect 1, confidence 3). -/
theorem filter_accept_iff_witness :
    (⟨0, 0, 50, 50, 3⟩ : Region) ∈ filter_valid_faces [⟨0, 0, 50, 50, 3⟩] 200 200 ↔
      (⟨0, 0, 50, 50, 3⟩ : Region) ∈ [(⟨0, 0, 50, 50, 3⟩ : Region)] ∧
        ((0.02 : ℚ) < ((50 * 50 : ℕ) : ℚ) / ((200 * 200 : ℕ) : ℚ) ∧
          ((50 * 50 : ℕ) : ℚ) / ((200 * 200 : ℕ) : ℚ) < (0.4 : ℚ)) ∧
        (2.0 : ℚ) < (3 : ℚ) ∧
        ((0.5 : ℚ) < ((50 : ℕ) : ℚ) / ((50 : ℕ) : ℚ) ∧
          ((50 : ℕ) : ℚ) / ((50 : ℕ) : ℚ) < (2.0 : ℚ)) ∧
        40 ≤ (50 : ℕ) ∧ 40 ≤ (50 : ℕ) :=
  filter_accept_iff [⟨0, 0, 50, 50, 3⟩] ⟨0, 0, 50, 50, 3⟩ 200 200 (by decide) (by decide)

/-- C1 counterexample: `bigFace` in a 100000×100000 image satisfies every
condition of the claim (area ratio 0.25, confidence 3, aspect 1, sides
50000 ≥ 40) yet the filter excludes it, because both `u32` area products
wrap; so the claim's unconditional biconditional is false. -/
theorem filter_accept_iff_counterexample :
    (bigFace ∈ [bigFace] ∧
      ((0.02 : ℚ) < ((bigFace.w * bigFace.h : ℕ) : ℚ) / ((100000 * 100000 : ℕ) : ℚ) ∧
        ((bigFace.w * bigFace.h : ℕ) : ℚ) / ((100000 * 100000 : ℕ) : ℚ) < (0.4 : ℚ)) ∧
      (2.0 : ℚ) < bigFace.score ∧
      ((0.5 : ℚ) < (bigFace.w : ℚ) / (bigFace.h : ℚ) ∧
        (bigFace.w : ℚ) / (bigFace.h : ℚ) < (2.0 : ℚ)) ∧
      40 ≤ bigFace.w ∧ 40 ≤ bigFace.h) ∧
    bigFace ∉ filter_valid_faces [bigFace] 100000 100000 := by
  constructor
  · norm_num [bigFace]
  · rw [mem_filter_valid_iff]
    norm_num [acceptFace, U32, bigFace]

/-- C7: the region filter is a pure function whose output is an
order-preserving subset of its input (a sublist), and it is idempotent. -/
theorem filter_valid_faces_sublist_idem (faces : List Region) (imgW imgH : ℕ) :
    (filter_valid_faces faces imgW imgH).Sublist faces ∧
      filter_valid_faces (filter_valid_faces faces imgW imgH) imgW imgH =
        filter_valid_faces faces imgW imgH := by
  constructor
  · exact List.filter_sublist faces
  · simp [filter_valid_faces, List.filter_filter, Bool.and_self]

/-- C8: a region with zero height is rejected without failure: the
acceptance predicate is total (f64 division by zero yields a non-finite
value failing both strict comparisons; in the `ℚ` model `w / 0 = 0`
likewise fails them), evaluates to `false`, and the region never appears
in the filter output. -/
theorem zero_height_rejected (face : Region) (imgW imgH : ℕ) (hh : face.h = 0) :
    acceptFace face imgW imgH = false ∧
      ∀ faces : List Region, face ∉ filter_valid_faces faces imgW imgH := by
  have hfalse : acceptFace face imgW imgH = false := by
    norm_num [acceptFace, hh]
  refine ⟨hfalse, fun faces hmem => ?_⟩
  rw [mem_filter_valid_iff] at hmem
  rw [hfalse] at hmem
  exact Bool.false_ne_true hmem.2

/-- C8 witness: the zero-height region (0,0,50,0) with confidence 3. -/
theorem zero_height_rejected_witness :
    (⟨0, 0, 50, 0, 3⟩ : Region).h = 0 ∧
      acceptFace ⟨0, 0, 50, 0, 3⟩ 200 200 = false ∧
      ∀ faces : List Region, (⟨0, 0, 50, 0, 3⟩ : Region) ∉ filter_valid_faces faces 200 200 :=
  ⟨rfl, zero_height_rejected ⟨0, 0, 50, 0, 3⟩ 200 200 rfl⟩

/-- C10: the filter computes both areas in `u32` arithmetic before the
float conversion, so it agrees with the mathematical area-ratio
predicate exactly when both products are below `2^32`; at `bigFace` in a
100000×100000 image (image product `10^10 ≥ 2^32`) the wrapped ratio is
wrong and the verdicts differ. -/
theorem area_products_u32 :
    (∀ (face : Region) (imgW imgH : ℕ), face.w * face.h < U32 → imgW * imgH < U32 →
      acceptFace face imgW imgH = acceptFaceExact face imgW imgH) ∧
    acceptFace bigFace 100000 100000 = false ∧
    acceptFaceExact bigFace 100000 100000 = true := by
  refine ⟨fun face imgW imgH hface himg => ?_, ?_, ?_⟩
  · simp only [acceptFace, acceptFaceExact, Nat.mod_eq_of_lt hface, Nat.mod_eq_of_lt himg]
  · norm_num [acceptFace, U32, bigFace]
  · norm_num [acceptFaceExact, bigFace]

/-- C10 witness: at a 50×50 region in a 200×200 image (both products far
below `2^32`) the wrapped and the exact predicate agree. -/
theorem area_products_u32_witness :
    acceptFace ⟨0, 0, 50, 50, 3⟩ 200 200 = acceptFaceExact ⟨0, 0, 50, 50, 3⟩ 200 200 :=
  area_products_u32.1 ⟨0, 0, 50, 50, 3⟩ 200 200 (by decide) (by decide)

/-- C3 counterexample: for the region (0,0,50,50) in a 200×200 image
(padding 12) the code's crop rectangle is (0,0,74,74) while the
intersection of the expanded box [-12,62]×[-12,62] with the image is
(0,0,62,62): clamping the top-left to 0 keeps the expanded width `w+2p`
instead of the expanded right edge, so the claim's intersection
characterisation is false. -/
theorem crop_not_intersection :
    cropRect ⟨0, 0, 50, 50, 3⟩ 200 200 ≠ specIntersectCrop ⟨0, 0, 50, 50, 3⟩ 200 200 := by
  decide

/-- C3 (amended): the cropper computes `padding = ⌊(w+h)/8⌋`, expands the
box by that padding, clamps the top-left to (0,0) and clamps width and
height so the box never exceeds the image; the result equals the
intersection of the expanded box with the image rectangle whenever the
expanded box's top-left already lies inside the image
(`padding ≤ x`, `padding ≤ y`, `x − padding ≤ W`, `y − padding ≤ H`).
When the expanded box crosses the left or top edge the code keeps the
expanded width/height after clamping, so the crop extends beyond the
intersection (see the counterexample). -/
theorem crop_eq_intersection_of_inside (face : Region) (imgW imgH : ℕ)
    (hx : (((face.w + face.h) / 8 : ℕ) : ℤ) ≤ face.x)
    (hy : (((face.w + face.h) / 8 : ℕ) : ℤ) ≤ face.y)
    (hxW : face.x - (((face.w + face.h) / 8 : ℕ) : ℤ) ≤ (imgW : ℤ))
    (hyH : face.y - (((face.w + face.h) / 8 : ℕ) : ℤ) ≤ (imgH : ℤ)) :
    cropRect face imgW imgH = specIntersectCrop face imgW imgH := by
  simp only [cropRect, specIntersectCrop, Prod.mk.injEq]
  refine ⟨trivial, trivial, ?_, ?_⟩ <;>
    (simp only [sup_eq_max, inf_eq_min, max_def, min_def]; split_ifs <;> omega)

/-- C3 witness: region (100,100,50,50) in a 400×400 image, padding 12:
the crop and the intersection coincide. -/
theorem crop_eq_intersection_witness :
    cropRect ⟨100, 100, 50, 50, 3⟩ 400 400 = specIntersectCrop ⟨100, 100, 50, 50, 3⟩ 400 400 :=
  crop_eq_intersection_of_inside ⟨100, 100, 50, 50, 3⟩ 400 400
    (by decide) (by decide) (by decide) (by decide)

/-- C4: whenever the clamped top-left lies within the image, the crop
rectangle satisfies `0 ≤ x`, `0 ≤ y`, `x + width ≤ W`, `y + height ≤ H`. -/
theorem crop_within_bounds (face : Region) (imgW imgH : ℕ)
    (hx : (cropRect face imgW imgH).1 < (imgW : ℤ))
    (hy : (cropRect face imgW imgH).2.1 < (imgH : ℤ)) :
    0 ≤ (cropRect face imgW imgH).1 ∧ 0 ≤ (cropRect face imgW imgH).2.1 ∧
      (cropRect face imgW imgH).1 + (cropRect face imgW imgH).2.2.1 ≤ (imgW : ℤ) ∧
      (cropRect face imgW imgH).2.1 + (cropRect face imgW imgH).2.2.2 ≤ (imgH : ℤ) := by
  simp only [cropRect] at hx hy ⊢
  refine ⟨by omega, by omega, by omega, by omega⟩

/-- C4 witness: the spec's own example, region (0,0,50,50) in a 200×200
image with computed padding 12: crop top-left is (0,0) and the
bottom-right stays within (200,200). -/
theorem crop_within_bounds_witness :
    ((cropRect ⟨0, 0, 50, 50, 3⟩ 200 200).1 < (200 : ℤ) ∧
      (cropRect ⟨0, 0, 50, 50, 3⟩ 200 200).2.1 < (200 : ℤ) ∧
      (((⟨0, 0, 50, 50, 3⟩ : Region).w + (⟨0, 0, 50, 50, 3⟩ : Region).h) / 8 : ℕ) = 12 ∧
      (cropRect ⟨0, 0, 50, 50, 3⟩ 200 200).1 = 0 ∧
      (cropRect ⟨0, 0, 50, 50, 3⟩ 200 200).2.1 = 0) ∧
    (0 ≤ (cropRect ⟨0, 0, 50, 50, 3⟩ 200 200).1 ∧
      0 ≤ (cropRect ⟨0, 0, 50, 50, 3⟩ 200 200).2.1 ∧
      (cropRect ⟨0, 0, 50, 50, 3⟩ 200 200).1 +
        (cropRect ⟨0, 0, 50, 50, 3⟩ 200 200).2.2.1 ≤ (200 : ℤ) ∧
      (cropRect ⟨0, 0, 50, 50, 3⟩ 200 200).2.1 +
        (cropRect ⟨0, 0, 50, 50, 3⟩ 200 200).2.2.2 ≤ (200 : ℤ)) :=
  ⟨⟨by decide, by decide, by decide, by decide, by decide⟩,
    crop_within_bounds ⟨0, 0, 50, 50, 3⟩ 200 200 (by decide) (by decide)⟩

theorem isOk_map (e : Except Unit ℕ) (g : ℕ → ℕ) : (e.map g).isOk = e.isOk := by
  cases e <;> rfl

theorem extractLoop_counter_le (stem : List Char) (faces : List (Region × Bool)) :
    ∀ counter target : ℕ, counter ≤ target →
      (extractLoop stem faces counter target).2.1 ≤ target := by
  induction faces with
  | nil => intro c t h; simpa [extractLoop] using h
  | cons p rest ih =>
    intro c t h
    obtain ⟨face, saveOk⟩ := p
    simp only [extractLoop]
    split
    · simpa using h
    · split
      · exact ih (c + 1) t (by omega)
      · simpa using h

theorem processImage_counter_le (f : ImageFile) (counter target : ℕ)
    (h : counter ≤ target) : (processImage f counter target).2.1 ≤ target := by
  unfold processImage
  split
  · simpa using h
  · split
    · simpa using h
    · split
      · simpa using h
      · dsimp only
        split
        · simpa using h
        · exact extractLoop_counter_le _ _ counter target h

theorem runMain_counter_le (files : List ImageFile) :
    ∀ counter target processed errors : ℕ, counter ≤ target →
      (runMain files counter target processed errors).1 ≤ target := by
  induction files with
  | nil => intro c t p e h; simpa [runMain] using h
  | cons f fs ih =>
    intro c t p e h
    simp only [runMain]
    split
    · simpa using h
    · split
      · exact ih _ t _ _ (processImage_counter_le f c t h)
      · exact ih _ t _ _ (processImage_counter_le f c t h)

theorem extractLoop_counts (stem : List Char) (faces : List (Region × Bool)) :
    ∀ counter target : ℕ,
      counter ≤ (extractLoop stem faces counter target).2.1 ∧
        (extractLoop stem faces counter target).2.2.map (fun s => s.2.1) =
          List.range' (counter + 1) ((extractLoop stem faces counter target).2.1 - counter) := by
  induction faces with
  | nil => intro c t; simp [extractLoop]
  | cons p rest ih =>
    intro c t
    obtain ⟨face, saveOk⟩ := p
    simp only [extractLoop]
    split
    · simp
    · split
      · dsimp only
        obtain ⟨ih1, ih2⟩ := ih (c + 1) t
        refine ⟨by omega, ?_⟩
        simp only [List.map_cons, ih2]
        have he : (extractLoop stem rest (c + 1) t).2.1 - c =
            ((extractLoop stem rest (c + 1) t).2.1 - (c + 1)) + 1 := by omega
        rw [he, List.range'_succ]
      · simp

theorem processImage_counts (f : ImageFile) (counter target : ℕ) :
    counter ≤ (processImage f counter target).2.1 ∧
      (processImage f counter target).2.2.map (fun s => s.2.1) =
        List.range' (counter + 1) ((processImage f counter target).2.1 - counter) := by
  unfold processImage
  split
  · simp
  · split
    · simp
    · split
      · simp
      · dsimp only
        split
        · simp
        · exact extractLoop_counts _ _ counter target

theorem runMain_counts (files : List ImageFile) :
    ∀ counter target processed errors : ℕ,
      counter ≤ (runMain files counter target processed errors).1 ∧
        (runMain files counter target processed errors).2.2.2.map (fun s => s.2.1) =
          List.range' (counter + 1)
            ((runMain files counter target processed errors).1 - counter) := by
  induction files with
  | nil => intro c t p e; simp [runMain]
  | cons f fs ih =>
    intro c t p e
    simp only [runMain]
    split
    · simp
    · split
      · dsimp only
        obtain ⟨h1, h2⟩ := processImage_counts f c t
        obtain ⟨h3, h4⟩ := ih (processImage f c t).2.1 t (p + 1) e
        refine ⟨by omega, ?_⟩
        simp only [List.map_append, h2, h4]
        rw [show (processImage f c t).2.1 + 1 =
          (c + 1) + ((processImage f c t).2.1 - c) by omega, List.range'_append_1]
        congr 1
        omega
      · dsimp only
        obtain ⟨h1, h2⟩ := processImage_counts f c t
        obtain ⟨h3, h4⟩ := ih (processImage f c t).2.1 t p (e + 1)
        refine ⟨by omega, ?_⟩
        simp only [List.map_append, h2, h4]
        rw [show (processImage f c t).2.1 + 1 =
          (c + 1) + ((processImage f c t).2.1 - c) by omega, List.range'_append_1]
        congr 1
        omega

/-- A region accepted in a 200×200 image: ratio 1/16, aspect 1, score 3. -/
def sampleFace : Region := ⟨0, 0, 50, 50, 3⟩

/-- A file contributing two accepted faces, all saves succeeding. -/
def sampleFileA : ImageFile :=
  ⟨['a'], Except.ok (200, 200, [(sampleFace, true), (sampleFace, true)])⟩

/-- A file contributing three accepted faces, all saves succeeding. -/
def sampleFileB : ImageFile :=
  ⟨['b'], Except.ok (200, 200, [(sampleFace, true), (sampleFace, true), (sampleFace, true)])⟩

/-- A file whose decode fails. -/
def badFile : ImageFile := ⟨['b'], Except.error ()⟩

/-- C9: the global extracted counter never exceeds the target, not even
within one file's batch: each increment happens only after observing
`counter < target` at the per-region check, so from any state with
`counter ≤ target` both the per-region loop and the file loop keep the
counter at most `target`.  Every intermediate state of a run has this
shape, with the remaining regions (resp. files) as the list argument. -/
theorem counter_at_most_target :
    (∀ (stem : List Char) (faces : List (Region × Bool)) (counter target : ℕ),
        counter ≤ target → (extractLoop stem faces counter target).2.1 ≤ target) ∧
    (∀ (files : List ImageFile) (counter target processed errors : ℕ),
        counter ≤ target →
          (runMain files counter target processed errors).1 ≤ target) :=
  ⟨fun stem faces c t h => extractLoop_counter_le stem faces c t h,
    fun files c t p e h => runMain_counter_le files c t p e h⟩

/-- C9 witness: a run over two files holding five accepted faces with
target 3 keeps the counter at most 3. -/
theorem counter_at_most_target_witness :
    (0 : ℕ) ≤ 3 ∧ (runMain [sampleFileA, sampleFileB] 0 3 0 0).1 ≤ 3 :=
  ⟨by decide, counter_at_most_target.2 [sampleFileA, sampleFileB] 0 3 0 0 (by decide)⟩

theorem extractLoop_all_ok (stem : List Char) (faces : List (Region × Bool)) :
    ∀ counter target : ℕ, counter ≤ target → faces.all (fun p => p.2) = true →
      (∃ n, (extractLoop stem faces counter target).1 = Except.ok n) ∧
        (extractLoop stem faces counter target).2.1 =
          min target (counter + faces.length) := by
  induction faces with
  | nil =>
    intro c t h _
    refine ⟨⟨0, rfl⟩, ?_⟩
    simp [extractLoop]
    omega
  | cons p rest ih =>
    intro c t h hall
    obtain ⟨face, saveOk⟩ := p
    simp only [List.all_cons, Bool.and_eq_true] at hall
    simp only [extractLoop]
    split
    · refine ⟨⟨0, rfl⟩, ?_⟩
      dsimp only
      simp only [List.length_cons]
      omega
    · split
      · dsimp only
        obtain ⟨ih1, ih2⟩ := ih (c + 1) t (by omega) hall.2
        obtain ⟨n, hn⟩ := ih1
        refine ⟨⟨n + 1, ?_⟩, ?_⟩
        · rw [hn]; rfl
        · rw [ih2]
          simp only [List.length_cons]
          omega
      · exact absurd hall.1 (by assumption)

theorem processImage_all_ok (f : ImageFile) (counter target : ℕ)
    (h : counter ≤ target) (hdec : fileDecodeOk f = true) (hsav : fileSavesOk f = true) :
    (∃ n, (processImage f counter target).1 = Except.ok n) ∧
      (processImage f counter target).2.1 = min target (counter + validCount f) := by
  unfold processImage
  split
  · refine ⟨⟨0, rfl⟩, ?_⟩
    dsimp only
    omega
  · split
    · rename_i herr
      rw [fileDecodeOk] at hdec
      rw [herr] at hdec
      simp at hdec
    · rename_i imgW imgH faces heq
      split
      · rename_i hemp
        refine ⟨⟨0, rfl⟩, ?_⟩
        dsimp only
        have hvc : validCount f = 0 := by
          simp [validCount, heq, List.isEmpty_iff.1 hemp]
        rw [hvc]
        omega
      · dsimp only
        split
        · rename_i hvemp
          refine ⟨⟨0, rfl⟩, ?_⟩
          dsimp only
          have hvc : validCount f = 0 := by
            simp only [validCount, heq]
            rw [List.isEmpty_iff.1 hvemp]
            rfl
          rw [hvc]
          omega
        · have hva : (faces.filter (fun p => acceptFace p.1 imgW imgH)).all
              (fun p => p.2) = true := by
            have hfa : faces.all (fun p => p.2) = true := by
              simpa [fileSavesOk, heq] using hsav
            simp only [List.all_eq_true] at hfa ⊢
            exact fun p hp => hfa p (List.mem_of_mem_filter hp)
          have hres := extractLoop_all_ok f.stem _ counter target h hva
          have hvc : validCount f =
              (faces.filter (fun p => acceptFace p.1 imgW imgH)).length := by
            simp [validCount, heq]
          rw [hvc]
          exact hres

theorem runMain_all_ok (files : List ImageFile) :
    ∀ counter target processed errors : ℕ, counter ≤ target →
      (∀ f ∈ files, fileDecodeOk f = true) → (∀ f ∈ files, fileSavesOk f = true) →
      (runMain files counter target processed errors).1 =
        min target (counter + (files.map validCount).sum) := by
  induction files with
  | nil =>
    intro c t p e h _ _
    simp [runMain]
    omega
  | cons f fs ih =>
    intro c t p e h hdec hsav
    simp only [runMain]
    split
    · dsimp only
      simp only [List.map_cons, List.sum_cons]
      omega
    · obtain ⟨hok, hcnt⟩ := processImage_all_ok f c t h (hdec f (by simp)) (hsav f (by simp))
      obtain ⟨n, hn⟩ := hok
      split
      · dsimp only
        rw [ih (processImage f c t).2.1 t (p + 1) e (processImage_counter_le f c t h)
          (fun g hg => hdec g (by simp [hg])) (fun g hg => hsav g (by simp [hg]))]
        rw [hcnt]
        simp only [List.map_cons, List.sum_cons]
        omega
      · rename_i herr
        rw [hn] at herr
        simp at herr

/-- C2: given a target `t` and input files that together yield at least
`t` filter-accepted regions, with every decode and save succeeding, the
run extracts exactly `t` faces and stops: the counter is re-checked
before entering each file and before each region, so exactly `t` saves
are performed and the final counter equals `t`. -/
theorem run_extracts_exactly_target (files : List ImageFile) (target : ℕ)
    (hdec : ∀ f ∈ files, fileDecodeOk f = true)
    (hsav : ∀ f ∈ files, fileSavesOk f = true)
    (htot : target ≤ (files.map validCount).sum) :
    (runMain files 0 target 0 0).1 = target ∧
      (runMain files 0 target 0 0).2.2.2.length = target := by
  have h1 := runMain_all_ok files 0 target 0 0 (Nat.zero_le _) hdec hsav
  have h2 := (runMain_counts files 0 target 0 0).2
  have hlen : (runMain files 0 target 0 0).2.2.2.length =
      (runMain files 0 target 0 0).1 - 0 := by
    have hcg := congrArg List.length h2
    simpa using hcg
  refine ⟨by rw [h1]; omega, by rw [hlen, h1]; omega⟩

theorem digitChar_ne_underscore (d : ℕ) : digitChar d ≠ '_' := by
  unfold digitChar
  split <;> decide

theorem charVal_digitChar (d : ℕ) (h : d < 10) : (digitChar d).toNat - 48 = d := by
  interval_cases d <;> decide

theorem natDigits_lt_ten (fuel : ℕ) : ∀ n d, d ∈ natDigits fuel n → d < 10 := by
  induction fuel with
  | zero => intro n d hd; simp [natDigits] at hd
  | succ fuel ih =>
    intro n d hd
    simp only [natDigits] at hd
    split at hd
    · simp at hd
    · simp only [List.mem_cons] at hd
      rcases hd with rfl | hd
      · omega
      · exact ih _ _ hd

theorem ofDigits_natDigits (fuel : ℕ) :
    ∀ n, n ≤ fuel → Nat.ofDigits 10 (natDigits fuel n) = n := by
  induction fuel with
  | zero =>
    intro n h
    interval_cases n
    simp [natDigits]
  | succ fuel ih =>
    intro n h
    simp only [natDigits]
    split
    · rename_i h0
      simp [Nat.ofDigits_nil, h0]
    · rename_i h0
      rw [Nat.ofDigits_cons, ih (n / 10) (by omega)]
      omega

theorem decodeChars_natChars (n : ℕ) : decodeChars (natChars n) = n := by
  unfold natChars
  split
  · rename_i h0
    subst h0
    decide
  · unfold decodeChars
    rw [List.map_reverse, List.reverse_reverse, List.map_map]
    have h1 : (natDigits n n).map ((fun c : Char => c.toNat - 48) ∘ digitChar) =
        (natDigits n n).map id := by
      refine List.map_congr_left ?_
      intro d hd
      exact charVal_digitChar d (natDigits_lt_ten n n d hd)
    rw [h1, List.map_id]
    exact ofDigits_natDigits n n le_rfl

theorem ofDigits_replicate_zero (k : ℕ) : Nat.ofDigits 10 (List.replicate k 0) = 0 := by
  induction k with
  | zero => simp [Nat.ofDigits_nil]
  | succ k ih => simp [List.replicate_succ, Nat.ofDigits_cons, ih]

theorem decodeChars_pad4 (n : ℕ) : decodeChars (pad4 n) = n := by
  have hz : ((List.replicate (4 - (natChars n).length) '0').map
      (fun c : Char => c.toNat - 48)) = List.replicate (4 - (natChars n).length) 0 := by
    rw [List.map_replicate]
    congr 1
  unfold pad4 decodeChars
  rw [List.map_append, hz, List.reverse_append, List.reverse_replicate,
    Nat.ofDigits_append, ofDigits_replicate_zero]
  simpa using decodeChars_natChars n

theorem natChars_ne_underscore (n : ℕ) : ∀ c ∈ natChars n, c ≠ '_' := by
  intro c hc
  unfold natChars at hc
  split at hc
  · simp at hc
    subst hc
    decide
  · rw [List.mem_reverse] at hc
    simp only [List.mem_map] at hc
    obtain ⟨d, _, rfl⟩ := hc
    exact digitChar_ne_underscore d

theorem pad4_ne_underscore (n : ℕ) : ∀ c ∈ pad4 n, c ≠ '_' := by
  intro c hc
  unfold pad4 at hc
  rw [List.mem_append] at hc
  rcases hc with hc | hc
  · rw [List.eq_of_mem_replicate hc]
    decide
  · exact natChars_ne_underscore n c hc

theorem intChars_ne_underscore (z : ℤ) : ∀ c ∈ intChars z, c ≠ '_' := by
  intro c hc
  unfold intChars at hc
  split at hc
  · simp only [List.mem_cons] at hc
    rcases hc with rfl | hc
    · decide
    · exact natChars_ne_underscore _ c hc
  · exact natChars_ne_underscore _ c hc

theorem dropWhile_append_sep (A B : List Char) (hA : ∀ a ∈ A, a ≠ '_') :
    (A ++ '_' :: B).dropWhile (fun c => c != '_') = '_' :: B := by
  induction A with
  | nil => simp [List.dropWhile_cons]
  | cons a A ih =>
    have ha : (a != '_') = true := by
      simpa using hA a (List.mem_cons_self a A)
    simp only [List.cons_append, List.dropWhile_cons, ha, if_true]
    exact ih (fun x hx => hA x (List.mem_cons_of_mem a hx))

theorem takeWhile_append_sep (A B : List Char) (hA : ∀ a ∈ A, a ≠ '_') :
    (A ++ '_' :: B).takeWhile (fun c => c != '_') = A := by
  induction A with
  | nil => simp [List.takeWhile_cons]
  | cons a A ih =>
    have ha : (a != '_') = true := by
      simpa using hA a (List.mem_cons_self a A)
    simp only [List.cons_append, List.takeWhile_cons, ha, if_true]
    rw [ih (fun x hx => hA x (List.mem_cons_of_mem a hx))]

theorem countOf_spec (stem pad sc : List Char)
    (hpad : ∀ a ∈ pad, a ≠ '_') (hsc : ∀ a ∈ sc, a ≠ '_') :
    countOf (stem ++ '_' :: (pad ++ '_' :: (sc ++ ['.', 'j', 'p', 'g']))) =
      decodeChars pad := by
  unfold countOf
  have hrev : (stem ++ '_' :: (pad ++ '_' :: (sc ++ ['.', 'j', 'p', 'g']))).reverse =
      'g' :: 'p' :: 'j' :: '.' ::
        (sc.reverse ++ '_' :: (pad.reverse ++ '_' :: stem.reverse)) := by
    simp [List.reverse_append]
  rw [hrev]
  have hdrop : List.drop 4
      ('g' :: 'p' :: 'j' :: '.' ::
        (sc.reverse ++ '_' :: (pad.reverse ++ '_' :: stem.reverse))) =
      sc.reverse ++ '_' :: (pad.reverse ++ '_' :: stem.reverse) := rfl
  rw [hdrop]
  dsimp only
  rw [dropWhile_append_sep _ _ (fun a ha => hsc a (List.mem_reverse.1 ha))]
  rw [List.tail_cons]
  rw [takeWhile_append_sep _ _ (fun a ha => hpad a (List.mem_reverse.1 ha))]
  rw [List.reverse_reverse]

theorem countOf_mkName (stem : List Char) (count : ℕ) (sc : ℤ) :
    countOf (mkName stem count sc) = count := by
  unfold mkName
  rw [countOf_spec stem (pad4 count) (intChars sc) (pad4_ne_underscore count)
    (intChars_ne_underscore sc), decodeChars_pad4]

/-- C5: every saved filename follows the rule
`{stem}_{counter_before+1:04}_{round(score*100)}.{ext}` (this is the
definition of `mkName`/`savedNames` and the save records built by the
extraction loop), and within one run no two saved files receive the same
name: the counter component is strictly increasing across saves
(`runMain_counts` shows the components form the consecutive range
`counter+1, …`), and the counter component is recoverable from the name,
so all names are distinct. -/
theorem saved_filenames_unique (files : List ImageFile) (target : ℕ) :
    (savedNames (runMain files 0 target 0 0).2.2.2).Nodup := by
  have h2 := (runMain_counts files 0 target 0 0).2
  have hmap : (savedNames (runMain files 0 target 0 0).2.2.2).map countOf =
      (runMain files 0 target 0 0).2.2.2.map (fun s => s.2.1) := by
    simp only [savedNames, List.map_map]
    exact List.map_congr_left (fun s _ => countOf_mkName s.1 s.2.1 s.2.2)
  apply List.Nodup.of_map countOf
  rw [hmap, h2]
  exact List.nodup_range' _ _

/-- C2 witness: two files with two and three accepted faces, target 3:
the run extracts exactly 3 faces and performs exactly 3 saves. -/
theorem run_extracts_exactly_target_witness :
    (runMain [sampleFileA, sampleFileB] 0 3 0 0).1 = 3 ∧
      (runMain [sampleFileA, sampleFileB] 0 3 0 0).2.2.2.length = 3 :=
  run_extracts_exactly_target [sampleFileA, sampleFileB] 3 (by decide) (by decide)
    (by norm_num [validCount, sampleFileA, sampleFileB, sampleFace, acceptFace, U32,
      List.filter])

/-- C6: a per-file error (failed decode, or failed save inside the file)
is caught at the per-file boundary of the driver loop: when the file's
processing returns an error and the target is not yet reached, the run
increments the `errors` counter, proceeds with the remaining files
unchanged otherwise, and the whole run still finishes with a successful
exit (`main` returns `Ok` after the loop; only the setup steps outside
this model can abort the process). -/
theorem per_file_errors_contained (f : ImageFile) (fs : List ImageFile)
    (counter target processed errors : ℕ) (hlt : counter < target)
    (herr : (processImage f counter target).1 = Except.error ()) :
    runMain (f :: fs) counter target processed errors =
      ((runMain fs (processImage f counter target).2.1 target processed (errors + 1)).1,
        (runMain fs (processImage f counter target).2.1 target processed (errors + 1)).2.1,
        (runMain fs (processImage f counter target).2.1 target processed
          (errors + 1)).2.2.1,
        (processImage f counter target).2.2 ++
          (runMain fs (processImage f counter target).2.1 target processed
            (errors + 1)).2.2.2) ∧
      (mainResult (f :: fs) target).isOk = true := by
  constructor
  · simp only [runMain]
    rw [if_neg (by omega)]
    split
    · rename_i val heq
      rw [herr] at heq
      simp at heq
    · rfl
  · rfl

/-- C6 witness: a file with a failing decode, target 3: the error is
recorded, the loop continues with the remaining (empty) file list, and
the run exits successfully. -/
theorem per_file_errors_contained_witness :
    ((0 : ℕ) < 3 ∧ (processImage badFile 0 3).1 = Except.error ()) ∧
      (runMain [badFile] 0 3 0 0 =
        ((runMain [] (processImage badFile 0 3).2.1 3 0 1).1,
          (runMain [] (processImage badFile 0 3).2.1 3 0 1).2.1,
          (runMain [] (processImage badFile 0 3).2.1 3 0 1).2.2.1,
          (processImage badFile 0 3).2.2 ++
            (runMain [] (processImage badFile 0 3).2.1 3 0 1).2.2.2) ∧
        (mainResult [badFile] 3).isOk = true) :=
  ⟨⟨by decide, rfl⟩, per_file_errors_contained badFile [] 0 3 0 0 (by decide) rfl⟩
